import Mathlib

/-!
Verification development for the ORE language front end (Sources/main.c):
a shallow embedding of the lexer (GetNextTokenFromBuffer), the parser
(ParseText / GetValue), the bounded error collector (PushParseError) and
the keyword prefix tree (InsertKeywordIntoTree / GetKeywordValueFromTree),
together with theorems about the behaviours the specification describes.

Modelling conventions:
* the source buffer is a `List Char`; the C null terminator is modelled by
  `charAt` returning the null character past the end of the list, matching
  the C code's `buffer[i]` reads against a null-terminated buffer;
* pointers into the buffer are `Nat` offsets; a `Token`'s `string` pointer
  and `string_length` become the `start`/`len` fields;
* `char` is treated as unsigned (`Char.toNat` comparisons), so
  `CharIsSpace(c) = c <= 32` becomes `c.toNat ≤ 32`;
* the arena is not modelled (allocation cannot fail and never moves);
  token chains built through arena pointers become Lean lists;
* the C `while` loop of ParseText is modelled with explicit fuel, since
  its termination is exactly one of the questions under study; `none`
  means the fuel ran out;
* `GetValue` returns `i8` in C; `wrap8` models the int-to-i8 truncation;
* writes through a pointer formed as `&NULL->field` (which the prefix
  tree insertion can produce) and out-of-bounds heap accesses are
  modelled as `none` (undefined behaviour / crash);
* each appended `ExprNode` carries a ghost field `errAtAppend` recording
  the error-collector size at the moment the node was appended; it is
  write-only instrumentation and feeds no other computation.
-/

namespace Ore

/-- The C null terminator character. -/
def cNull : Char := Char.ofNat 0

/-- The newline character. -/
def cNL : Char := Char.ofNat 10

/-- The double-quote character. -/
def cQuote : Char := Char.ofNat 34

/-- The backslash character. -/
def cBackslash : Char := Char.ofNat 92

/-- The backtick character. -/
def cBacktick : Char := Char.ofNat 96

/-- Reading `buffer[p]` from a null-terminated buffer: past the end of the
list the C buffer holds the null terminator. -/
def charAt (buf : List Char) (p : Nat) : Char := buf.getD p cNull

/-- C `CharIsDigit`: `c >= '0' && c <= '9'`. -/
def CharIsDigit (c : Char) : Bool := 48 ≤ c.toNat && c.toNat ≤ 57

/-- C `CharIsSpace`: `c <= 32` (char taken as unsigned). -/
def CharIsSpace (c : Char) : Bool := c.toNat ≤ 32

/-- C `symbols` array: `{'=','{','}','*','|','`'}`. -/
def symbols : List Char := ['=', '{', '}', '*', '|', cBacktick]

/-- C `CharIsSymbol`: membership in the `symbols` array. -/
def CharIsSymbol (c : Char) : Bool := symbols.contains c

/-- C `TokenType`. -/
inductive TokenType where
  | tNone
  | tVar
  | tConst
  | tFunc
  | tInt
  | tFloat
  | tDoubleNewline
  | tSymbol
  | tStringConstant
deriving DecidableEq, Repr

/-- C `Token`: `string`/`string_length` become `start`/`len` offsets into the
buffer; `lines_traversed` becomes `lines`. The zero-initialised token is the
default value (type `Token_None`). -/
structure Token where
  type : TokenType := .tNone
  start : Nat := 0
  len : Nat := 0
  lines : Nat := 0
deriving DecidableEq, Repr

/-- The escape-aware span scan shared by the Var/Const/StringConstant rules:
the C loop `for(; (s[l] != stop1 && s[l] != stop2 || escaped) && s[l]; ++l)`
with `escaped` starting at 1 and a backslash setting it for the next char. -/
def escScan (stop1 stop2 : Char) : List Char → Bool → Nat
  | [], _ => 0
  | c :: rest, esc =>
      if c = cNull then 0
      else if (c = stop1 ∨ c = stop2) ∧ esc = false then 0
      else 1 + escScan stop1 stop2 rest (if esc then false else decide (c = cBackslash))

/-- The Int span scan: the C loop consumes digits and whitespace, stopping
(without consuming) at `;`, at the terminator, or at any other character. -/
def intScan : List Char → Nat
  | [] => 0
  | c :: rest =>
      if c ≠ ';' ∧ c ≠ cNull ∧ (CharIsDigit c || CharIsSpace c) = true then
        1 + intScan rest
      else 0

/-- The maximal symbol run: C `for(j=i+1; buffer[j] && CharIsSymbol(buffer[j]); ++j)`. -/
def symRun : List Char → Nat
  | [] => 0
  | c :: rest => if c ≠ cNull ∧ CharIsSymbol c = true then 1 + symRun rest else 0

/-- C `CStringMatchCaseSensitiveN(lit, buffer+i, strlen(lit))`: the first
`lit.length` characters of the suffix `l` equal `lit`. -/
def matchLit (l lit : List Char) : Bool :=
  (List.range lit.length).all (fun k => l.getD k cNull = lit.getD k cNull)

/-- C `symbolic_blocks_to_break_out`. -/
def symbolic_blocks : List (List Char) :=
  [['='], ['*'], ['_'], [cBacktick], ['{'], ['}'], ['|'], [';']]

/-- Length of a Symbol token starting at a character `c` (with suffix `rest`):
the maximal run, overridden by the first matching canonical block literal. -/
def symTokenLen (c : Char) (rest : List Char) : Nat :=
  let j := 1 + symRun rest
  match symbolic_blocks.find? (fun lit => matchLit (c :: rest) lit) with
  | some lit => lit.length
  | none => j

/-- Newlines inside a token span (C counts `'\n'` over `string[0..len)`). -/
def countNLs (l : List Char) : Nat := (l.filter (fun c => c = cNL)).length

/-- The scanning loop of C `GetNextTokenFromBuffer`, over the suffix of the
buffer starting at absolute offset `p`; rules are tried in source order and
a character matching no rule is skipped. -/
def lexGo : List Char → Nat → Token
  | [], _ => {}
  | c :: rest, p =>
      if c = cNull then {}
      else if c = cNL ∧ rest.getD 0 cNull = cNL then
        { type := .tDoubleNewline, start := p, len := 2,
          lines := countNLs ((c :: rest).take 2) }
      else if c = 'v' ∧ rest.getD 0 cNull = 'a' ∧ rest.getD 1 cNull = 'r' then
        let L := escScan '=' ':' (c :: rest) true
        { type := .tVar, start := p, len := L, lines := countNLs ((c :: rest).take L) }
      else if c = 'c' ∧ rest.getD 0 cNull = 'o' ∧ rest.getD 1 cNull = 'n' ∧
              rest.getD 2 cNull = 's' ∧ rest.getD 3 cNull = 't' then
        let L := escScan ';' ';' (c :: rest) true
        { type := .tConst, start := p, len := L, lines := countNLs ((c :: rest).take L) }
      else if c = cQuote then
        let L := escScan cQuote cQuote (c :: rest) true + 1
        { type := .tStringConstant, start := p, len := L,
          lines := countNLs ((c :: rest).take L) }
      else if CharIsDigit c = true then
        let L := intScan (c :: rest)
        { type := .tInt, start := p, len := L, lines := countNLs ((c :: rest).take L) }
      else if ¬ CharIsSpace c = true ∧ CharIsSymbol c = true then
        let L := symTokenLen c rest
        { type := .tSymbol, start := p, len := L, lines := countNLs ((c :: rest).take L) }
      else lexGo rest (p + 1)

/-- C `GetNextTokenFromBuffer`: scan from the cursor offset `p`. -/
def GetNextTokenFromBuffer (buf : List Char) (p : Nat) : Token :=
  lexGo (buf.drop p) p

/-- C `Tokenizer`: the cursor `at` becomes the offset `pos`; `file` and
`break_text_by_commas` play no role in the embedded behaviour. -/
structure Tokenizer where
  pos : Nat
  line : Nat
deriving DecidableEq, Repr

/-- Cursor advance after consuming a token: `at = string + string_length`,
`line += lines_traversed`. -/
def advancePast (tk : Tokenizer) (t : Token) : Tokenizer :=
  { pos := t.start + t.len, line := tk.line + t.lines }

/-- C `RequireTokenType`: advance only when the produced token has the
expected kind. -/
def RequireTokenType (buf : List Char) (tk : Tokenizer) (ty : TokenType) :
    Option (Token × Tokenizer) :=
  let t := GetNextTokenFromBuffer buf tk.pos
  if t.type = ty then some (t, advancePast tk t) else none

/-- C `TokenMatch`: kind not None, the token's characters equal the literal,
and the literal ends exactly at the token's length (its `len`-th char is the
terminator). The `len ≠ 0` conjunct models `CStringMatchCaseSensitiveN`
returning 0 when `n` is 0. -/
def TokenMatchLit (buf : List Char) (t : Token) (lit : List Char) : Prop :=
  t.type ≠ .tNone ∧ t.len ≠ 0 ∧
  (∀ k, k < t.len → charAt buf (t.start + k) = lit.getD k cNull) ∧
  lit.getD t.len cNull = cNull

instance (buf : List Char) (t : Token) (lit : List Char) :
    Decidable (TokenMatchLit buf t lit) := by
  unfold TokenMatchLit; infer_instance

/-- C `RequireToken`: advance only when the produced token matches the
literal exactly. -/
def RequireToken (buf : List Char) (tk : Tokenizer) (lit : List Char) :
    Option (Token × Tokenizer) :=
  let t := GetNextTokenFromBuffer buf tk.pos
  if TokenMatchLit buf t lit then some (t, advancePast tk t) else none

/-- The distinct diagnostic messages the front end can push; the printf
formatting is elided, the format arguments are carried by the constructor. -/
inductive ErrMsg where
  | malformedTag
  | expectedQuoteAssign
  | invalidIntTerminator (c : Char)
  | missingValue
  | unexpectedSymbol (s : List Char)
deriving DecidableEq, Repr

/-- C `ParseError` (the borrowed `file` name is the same for a whole parse
and is elided). -/
structure PError where
  line : Nat
  msg : ErrMsg
deriving DecidableEq, Repr

/-- C `ParseContext`: only the error collector is semantically relevant;
the lazily-allocated stack with `error_stack_size_max = 32` is modelled by
the capped `errors` list. -/
structure Ctx where
  errors : List PError := []
deriving DecidableEq, Repr

/-- C `PushParseError`: append the diagnostic, silently dropping it when the
fixed capacity 32 is reached; `source_name`/`line` captured at call time. -/
def PushParseError (ctx : Ctx) (tk : Tokenizer) (m : ErrMsg) : Ctx :=
  if ctx.errors.length < 32 then { errors := ctx.errors ++ [⟨tk.line, m⟩] } else ctx

/-- The token's text, as a slice of the buffer. -/
def sliceOf (buf : List Char) (t : Token) : List Char :=
  (buf.drop t.start).take t.len

/-- The C conversion of a non-negative `int` to `i8` (two's-complement wrap),
applied to `GetValue`'s returned `link_length`. -/
def wrap8 (n : Nat) : Int :=
  if n % 256 < 128 then ((n % 256 : Nat) : Int) else ((n % 256 : Nat) : Int) - 256

/-- One pass of the C `GetValue` for-loop body starting at `link[i]`, for the
fall-through branches (bracket counting and the Int rule); returns the updated
`(i, bracket, value, tokenizer, context, isSet)`. -/
def gvStep (buf : List Char) (link i : Nat) (bracket : Int) (value : Token)
    (tk : Tokenizer) (ctx : Ctx) (isSet : Bool) :
    Nat × Int × Token × Tokenizer × Ctx × Bool :=
  let c := charAt buf (link + i)
  if c = '[' then (i, bracket + 1, value, tk, ctx, isSet)
  else if c = ']' then (i, bracket - 1, value, tk, ctx, isSet)
  else if CharIsDigit c = true then
    match RequireTokenType buf tk .tInt with
    | some (v, tk2) =>
        let lastc := charAt buf (v.start + v.len - 1)
        if CharIsDigit lastc = true then (i + v.len, bracket, v, tk2, ctx, true)
        else (i + v.len, bracket, v, tk2,
              PushParseError ctx tk2 (.invalidIntTerminator lastc), isSet)
    | none => (i, bracket, value, tk, ctx, isSet)
  else (i, bracket, value, tk, ctx, isSet)

/-- The C `GetValue` for-loop. Fuel only guards the recursion; the wrapper
supplies enough for any in-bounds scan (each iteration strictly advances `i`
and requires `link[i]` to be before the terminator). Running out of fuel
returns the current state, like reaching the terminator. -/
def GetValueLoop (buf : List Char) (link : Nat) :
    Nat → Nat → Nat → Int → Token → Tokenizer → Ctx → Bool →
    Bool × Nat × Token × Tokenizer × Ctx
  | 0, _, linkLen, _, value, tk, ctx, isSet => (isSet, linkLen, value, tk, ctx)
  | fuel + 1, i, linkLen, bracket, value, tk, ctx, isSet =>
      let c := charAt buf (link + i)
      if c = cNull then (isSet, linkLen, value, tk, ctx)
      else if c = cQuote then
        match RequireTokenType buf tk .tStringConstant with
        | some (v, tk2) => (true, linkLen, v, tk2, ctx)
        | none => (isSet, linkLen, value, tk, PushParseError ctx tk .expectedQuoteAssign)
      else
        match gvStep buf link i bracket value tk ctx isSet with
        | (i2, bracket2, value2, tk2, ctx2, isSet2) =>
            if charAt buf (link + i2) = ';' then (isSet2, linkLen + 1, value2, tk2, ctx2)
            else GetValueLoop buf link fuel (i2 + 1) (linkLen + 1) bracket2 value2 tk2 ctx2 isSet2

/-- C `GetValue`: scan the value span after `=`; on success return the
`i8`-truncated counted length, otherwise 0, pushing "Expected value before
endline" when nothing was accepted. -/
def GetValue (buf : List Char) (ctx : Ctx) (tk : Tokenizer) (link : Nat) :
    Int × Token × Tokenizer × Ctx :=
  match GetValueLoop buf link (buf.length + 1) 0 0 0 {} tk ctx false with
  | (isSet, linkLen, value, tk2, ctx2) =>
      if isSet then (wrap8 linkLen, value, tk2, ctx2)
      else (0, value, tk2, PushParseError ctx2 tk2 .missingValue)

/-- C `ExprType`. -/
inductive ExprType where
  | invalid
  | var
  | const
  | func
deriving DecidableEq, Repr

/-- C `ExprNode`: the owned token chain `var -> assign -> value` becomes the
`tokens` list; `errAtAppend` is ghost instrumentation recording the error
collector's size when the node was appended to the result list. -/
structure ExprNode where
  type : ExprType
  tokens : List Token
  tokens_length : Nat
  errAtAppend : Nat
deriving DecidableEq, Repr

/-- One iteration of the C `ParseText` while-loop body (the peeked token is
re-derived by each `Require` call, as in the source). -/
def ParseBody (buf : List Char) (tk : Tokenizer) (ctx : Ctx) (acc : List ExprNode) :
    Tokenizer × Ctx × List ExprNode :=
  match RequireTokenType buf tk .tVar with
  | some (isVar, tk1) =>
      -- the source re-assigns `tokenizer->at = var->string + var->string_length`,
      -- which equals the position RequireTokenType already advanced to
      let tk2 : Tokenizer := { pos := isVar.start + isVar.len, line := tk1.line }
      match RequireToken buf tk2 ['='] with
      | some (isAssign, tk3) =>
          let link := isAssign.start + 1
          match GetValue buf ctx tk3 link with
          | (ret, value, tk4, ctx4) =>
              if ret ≠ 0 then
                let node : ExprNode :=
                  { type := .var, tokens := [isVar, isAssign, value],
                    tokens_length := 3, errAtAppend := ctx4.errors.length }
                let tk5 : Tokenizer := { pos := ((link : Int) + ret).toNat, line := tk4.line }
                (tk5, ctx4, acc ++ [node])
              else (tk4, ctx4, acc)
      | none => (tk2, PushParseError ctx tk2 .malformedTag, acc)
  | none =>
  match RequireTokenType buf tk .tSymbol with
  | some (symbol, tk1) =>
      if TokenMatchLit buf symbol ['*'] then (tk1, ctx, acc)
      else if TokenMatchLit buf symbol ['|'] then (tk1, ctx, acc)
      else if TokenMatchLit buf symbol [cBacktick] then (tk1, ctx, acc)
      else (tk1, PushParseError ctx tk1 (.unexpectedSymbol (sliceOf buf symbol)), acc)
  | none =>
  match RequireTokenType buf tk .tDoubleNewline with
  | some (_, tk1) => (tk1, ctx, acc)
  | none => (tk, ctx, acc)

/-- The C `ParseText` while-loop: peek, stop on `Token_None`, run the body,
stop after any iteration that left the error collector non-empty. `none`
means the fuel was exhausted before the loop exited. -/
def ParseLoop (buf : List Char) :
    Nat → Tokenizer → Ctx → List ExprNode → Option (List ExprNode × Ctx × Tokenizer)
  | fuel, tk, ctx, acc =>
      let t := GetNextTokenFromBuffer buf tk.pos
      if t.type = .tNone then some (acc, ctx, tk)
      else
        match fuel with
        | 0 => none
        | fuel + 1 =>
            match ParseBody buf tk ctx acc with
            | (tk2, ctx2, acc2) =>
                if ctx2.errors.length > 0 then some (acc2, ctx2, tk2)
                else ParseLoop buf fuel tk2 ctx2 acc2

/-- C `ParseText` on a fresh tokenizer (`at` = buffer start, `line` = 1) and a
fresh context, as set up by `ProcessFile`. -/
def ParseText (buf : List Char) (fuel : Nat) : Option (List ExprNode × Ctx × Tokenizer) :=
  ParseLoop buf fuel { pos := 0, line := 1 } {} []

/-- C `KeywordPrefixTreeNode`; children are indices into an explicit heap
(the arena), `none` being the null pointer. -/
structure KeywordPrefixTreeNode where
  pfx : List Char
  value : List Char
  value_length : Nat
deriving DecidableEq, Repr

/-- A prefix tree node together with its two child pointers. -/
structure PTNode where
  node : KeywordPrefixTreeNode
  have_child : Option Nat
  no_have_child : Option Nat
deriving DecidableEq, Repr

/-- Where C's `node_target` points: the root pointer, a node's `have_child`
or `no_have_child` field, or `&NULL->field` (set when the walk descended
into a null child — storing through it is undefined behaviour). -/
inductive InsSlot where
  | root
  | haveOf (i : Nat)
  | noHaveOf (i : Nat)
  | nullSlot
deriving DecidableEq, Repr

/-- `*node_target = r`: `none` models the undefined-behaviour store through
`&NULL->field` (and an out-of-range index, which cannot arise). -/
def writeSlot (heap : List PTNode) (root : Option Nat) (s : InsSlot) (r : Option Nat) :
    Option (List PTNode × Option Nat) :=
  match s with
  | .root => some (heap, r)
  | .haveOf i =>
      match heap.get? i with
      | some n => some (heap.set i { n with have_child := r }, root)
      | none => none
  | .noHaveOf i =>
      match heap.get? i with
      | some n => some (heap.set i { n with no_have_child := r }, root)
      | none => none
  | .nullSlot => none

/-- C: matching leading characters of the key against a node's stored prefix. -/
def countMatch : List Char → List Char → Nat
  | k :: ks, p :: ps => if k = p then 1 + countMatch ks ps else 0
  | _, _ => 0

/-- The C `InsertKeywordIntoTree` for-loop. `cur` is `node`, `slot` is
`node_target`. Fuel guards the loop (insertion into a heap made cyclic by an
earlier deep split could spin); `none` models undefined behaviour or fuel
exhaustion. -/
def insertLoop (key value : List Char) :
    Nat → List PTNode → Option Nat → Option Nat → InsSlot →
    Option (List PTNode × Option Nat)
  | 0, _, _, _, _ => none
  | fuel + 1, heap, root, cur, slot =>
      match cur with
      | none =>
          let leaf : PTNode := ⟨⟨key, value, value.length⟩, none, none⟩
          writeSlot (heap ++ [leaf]) root slot (some heap.length)
      | some i =>
          match heap.get? i with
          | none => none
          | some n =>
              let m := countMatch key n.node.pfx
              if 0 < m then
                if n.node.pfx.length ≤ 1 then
                  match n.have_child with
                  | some j => insertLoop key value fuel heap root (some j) (.haveOf j)
                  | none => insertLoop key value fuel heap root none .nullSlot
                else
                  let newNode : PTNode := ⟨⟨key.take m, [], 0⟩, some i, none⟩
                  let idx := heap.length
                  match writeSlot (heap ++ [newNode]) root slot (some idx) with
                  | some (heap2, root2) =>
                      insertLoop key value fuel heap2 root2 none (.noHaveOf idx)
                  | none => none
              else
                match n.no_have_child with
                | some j => insertLoop key value fuel heap root (some j) (.noHaveOf j)
                | none => insertLoop key value fuel heap root none .nullSlot

/-- C `InsertKeywordIntoTree` on a heap plus root pointer. -/
def InsertKeywordIntoTree (fuel : Nat) (heap : List PTNode) (root : Option Nat)
    (key value : List Char) : Option (List PTNode × Option Nat) :=
  insertLoop key value fuel heap root root .root

/-- The C `GetKeywordValueFromTree` for-loop; returns the value slice and
`value_length` (0 meaning not found), `none` meaning fuel exhaustion (the
walk can spin on a cyclic heap). -/
def lookupLoop (heap : List PTNode) (key : List Char) :
    Nat → Option Nat → Option (List Char × Nat)
  | 0, _ => none
  | _ + 1, none => some ([], 0)
  | fuel + 1, some i =>
      match heap.get? i with
      | none => none
      | some n =>
          let m := countMatch key n.node.pfx
          if m = n.node.pfx.length then
            if m = key.length then some (n.node.value, n.node.value_length)
            else lookupLoop heap key fuel n.have_child
          else lookupLoop heap key fuel n.no_have_child

/-- C `GetKeywordValueFromTree`. -/
def GetKeywordValueFromTree (fuel : Nat) (heap : List PTNode) (root : Option Nat)
    (key : List Char) : Option (List Char × Nat) :=
  lookupLoop heap key fuel root

/-- Position `p` of the buffer matches one of the lexer's rules (in the order
the scanning loop tests them); a position matching no rule is skipped. -/
def ruleFires (buf : List Char) (p : Nat) : Prop :=
  (charAt buf p = cNL ∧ charAt buf (p + 1) = cNL) ∨
  (charAt buf p = 'v' ∧ charAt buf (p + 1) = 'a' ∧ charAt buf (p + 2) = 'r') ∨
  (charAt buf p = 'c' ∧ charAt buf (p + 1) = 'o' ∧ charAt buf (p + 2) = 'n' ∧
     charAt buf (p + 3) = 's' ∧ charAt buf (p + 4) = 't') ∨
  charAt buf p = cQuote ∨
  CharIsDigit (charAt buf p) = true ∨
  (¬ CharIsSpace (charAt buf p) = true ∧ CharIsSymbol (charAt buf p) = true)

instance (buf : List Char) (p : Nat) : Decidable (ruleFires buf p) := by
  unfold ruleFires; infer_instance

/-- A sequence of `PushParseError` calls, each with the tokenizer state and
message of that call. -/
def pushAll (ctx : Ctx) (ps : List (Tokenizer × ErrMsg)) : Ctx :=
  ps.foldl (fun c p => PushParseError c p.1 p.2) ctx

/-- The `ParseError` record a single accepted push would produce. -/
def mkPError (p : Tokenizer × ErrMsg) : PError := ⟨p.1.line, p.2⟩

/-- A diagnostic is not an "Unexpected symbol" report about `;`. -/
def NotSemiSymbolErr (e : PError) : Prop :=
  ∀ s, e.msg = .unexpectedSymbol s → s ≠ [';']

instance (e : PError) : Decidable (NotSemiSymbolErr e) := by
  unfold NotSemiSymbolErr
  match e with
  | ⟨_, .unexpectedSymbol s⟩ =>
      match decEq s [';'] with
      | isTrue h => exact isFalse (fun H => H s rfl h)
      | isFalse h => exact isTrue (fun s2 hs => by cases hs; exact h)
  | ⟨_, .malformedTag⟩ => exact isTrue (fun s2 hs => by cases hs)
  | ⟨_, .expectedQuoteAssign⟩ => exact isTrue (fun s2 hs => by cases hs)
  | ⟨_, .invalidIntTerminator _⟩ => exact isTrue (fun s2 hs => by cases hs)
  | ⟨_, .missingValue⟩ => exact isTrue (fun s2 hs => by cases hs)

/-- Input `1`: a bare integer at top level. -/
def bufOne : List Char := ['1']

/-- Input `var title="Hello";` (the spec's end-to-end string scenario). -/
def bufHello : List Char :=
  ['v', 'a', 'r', ' ', 't', 'i', 't', 'l', 'e', '='] ++
  [cQuote, 'H', 'e', 'l', 'l', 'o', cQuote, ';']

/-- Input `var NAME = 12 3;` (the spec's embedded-whitespace scenario). -/
def bufDigits3 : List Char :=
  ['v', 'a', 'r', ' ', 'N', 'A', 'M', 'E', ' ', '=', ' ', '1', '2', ' ', '3', ';']

/-- Input `var NAME = 12 ;` (trailing whitespace before the terminator). -/
def bufDigitsSp : List Char :=
  ['v', 'a', 'r', ' ', 'N', 'A', 'M', 'E', ' ', '=', ' ', '1', '2', ' ', ';']

/-- Input `var NAME 123;` (no assignment marker). -/
def bufNoEq : List Char :=
  ['v', 'a', 'r', ' ', 'N', 'A', 'M', 'E', ' ', '1', '2', '3', ';']

/-- Input `var a=1 "q";` (an invalid integer followed by a string value in
the same value span). -/
def bufQ : List Char :=
  ['v', 'a', 'r', ' ', 'a', '=', '1', ' ', cQuote, 'q', cQuote, ';']

/-- Input `var a=1;\n\nvar b=2;` (the spec's two-directive scenario). -/
def bufTwo : List Char :=
  ['v', 'a', 'r', ' ', 'a', '=', '1', ';', cNL, cNL,
   'v', 'a', 'r', ' ', 'b', '=', '2', ';']

/-- Input `covariant` (the keyword `var` embedded in a longer word). -/
def bufCov : List Char := ['c', 'o', 'v', 'a', 'r', 'i', 'a', 'n', 't']

/-- Input `zconst q;` (the keyword `const` embedded after another letter). -/
def bufZConst : List Char := ['z', 'c', 'o', 'n', 's', 't', ' ', 'q', ';']

/-- Input `{` (a symbol matching no placeholder). -/
def bufBrace : List Char := ['{']

set_option maxRecDepth 10000

/-- Claim C1, counterexample: on the one-character input `1` the parse loop
does not finish within 1000 iterations (the peeked Int token is consumed by
no rule and `PeekToken` never advances), so parse time is not bounded by the
input size. -/
theorem c1_counterexample : ParseText bufOne 1000 = none := by decide

/-- Claim C2, counterexample: on the spec's own end-to-end string scenario
`var title="Hello";` the parse terminates with zero nodes and zero
diagnostics — no Var node is produced for a well-formed string-valued
directive, because `GetValue` breaks out of its counting loop at the quote
and returns a `link_length` of 0, which the parser treats as failure. -/
theorem c2_counterexample : ParseText bufHello 10 = some ([], ⟨[]⟩, ⟨17, 1⟩) := by decide

/-- Claim C3: the code contradicts the claimed lookup-after-insert property.
Inserting `ab ↦ 1` and then `abc ↦ 2` into an empty tree makes the split
node (prefix `ab`, null value) the root; looking up `ab` matches that node
exactly and returns its null value (length 0, not found), and looking up
`abc` walks into the original `ab` leaf's null `have_child` (the `abc` leaf
sits unreachably on the split node's `no_have_child`), also not found. -/
theorem c3_code_bug_eval :
    InsertKeywordIntoTree 10 [] none ['a', 'b'] ['1'] =
      some ([⟨⟨['a', 'b'], ['1'], 1⟩, none, none⟩], some 0) ∧
    InsertKeywordIntoTree 10 [⟨⟨['a', 'b'], ['1'], 1⟩, none, none⟩] (some 0)
        ['a', 'b', 'c'] ['2'] =
      some ([⟨⟨['a', 'b'], ['1'], 1⟩, none, none⟩,
             ⟨⟨['a', 'b'], [], 0⟩, some 0, some 2⟩,
             ⟨⟨['a', 'b', 'c'], ['2'], 1⟩, none, none⟩], some 1) ∧
    GetKeywordValueFromTree 10
        [⟨⟨['a', 'b'], ['1'], 1⟩, none, none⟩,
         ⟨⟨['a', 'b'], [], 0⟩, some 0, some 2⟩,
         ⟨⟨['a', 'b', 'c'], ['2'], 1⟩, none, none⟩] (some 1) ['a', 'b'] =
      some ([], 0) ∧
    GetKeywordValueFromTree 10
        [⟨⟨['a', 'b'], ['1'], 1⟩, none, none⟩,
         ⟨⟨['a', 'b'], [], 0⟩, some 0, some 2⟩,
         ⟨⟨['a', 'b', 'c'], ['2'], 1⟩, none, none⟩] (some 1) ['a', 'b', 'c'] =
      some ([], 0) := by decide

/-- Claim C4, counterexample: on `var NAME = 12 3;` the value extractor
accepts the Int token `12 3` (its last character is the digit `3`) with no
diagnostic at all, returning 2; the parse then never terminates (the cursor
is reset into the middle of the number), so the input does not fail with
InvalidIntegerTerminator. -/
theorem c4_counterexample :
    ParseText bufDigits3 300 = none ∧
    GetValue bufDigits3 {} ⟨10, 1⟩ 10 = (2, ⟨.tInt, 11, 4, 0⟩, ⟨15, 1⟩, ⟨[]⟩) := by
  exact ⟨by decide, by decide⟩

/-- Claim C4, amended: it is trailing whitespace before the terminator that
triggers the diagnostic. Parsing `var NAME = 12 ;` pushes
InvalidIntegerTerminator (the captured span `12 ` ends in a space) followed
by MissingValue, and produces zero nodes. -/
theorem c4_amended_thm :
    ParseText bufDigitsSp 10 =
      some ([], ⟨[⟨1, .invalidIntTerminator ' '⟩, ⟨1, .missingValue⟩]⟩, ⟨14, 1⟩) := by
  decide

/-- Claim C5: parsing `var NAME 123;` (a var tag with no `=` following)
pushes the MalformedTag diagnostic and returns an empty node sequence. -/
theorem c5_thm :
    ParseText bufNoEq 10 = some ([], ⟨[⟨1, .malformedTag⟩]⟩, ⟨13, 1⟩) := by decide

/-- Claim C6, counterexample: parsing `var a=1 "q";` first pushes the
InvalidIntegerTerminator diagnostic (the Int token `1 ` ends in a space) and
then, in the same `GetValue` scan, accepts the string `"q"` as the value, so
a Var node is appended while the error collector already holds one
diagnostic (ghost field `errAtAppend = 1`). -/
theorem c6_counterexample :
    ParseText bufQ 10 =
      some ([⟨.var, [⟨.tVar, 0, 5, 0⟩, ⟨.tSymbol, 5, 1, 0⟩, ⟨.tStringConstant, 8, 3, 0⟩],
              3, 1⟩],
            ⟨[⟨1, .invalidIntTerminator ' '⟩]⟩, ⟨8, 1⟩) := by decide

/-- Claim C8: parsing `var a=1;\n\nvar b=2;` returns exactly two Var nodes
in encounter order (`a`'s node, starting at offset 0, before `b`'s node,
starting at offset 10), with the DoubleNewline between them consumed (its
two newlines advance the line counter to 3) and producing no node, and no
diagnostics. -/
theorem c8_thm :
    ParseText bufTwo 20 =
      some ([⟨.var, [⟨.tVar, 0, 5, 0⟩, ⟨.tSymbol, 5, 1, 0⟩, ⟨.tInt, 6, 1, 0⟩], 3, 0⟩,
             ⟨.var, [⟨.tVar, 10, 5, 0⟩, ⟨.tSymbol, 15, 1, 0⟩, ⟨.tInt, 16, 1, 0⟩], 3, 0⟩],
            ⟨[]⟩, ⟨17, 3⟩) := by decide

/-- Reading a non-terminator character means the offset is in bounds. -/
theorem charAt_lt (buf : List Char) (p : Nat) (h : charAt buf p ≠ cNull) :
    p < buf.length := by
  by_contra hge
  exact h (List.getD_eq_default _ _ (Nat.le_of_not_lt hge))

/-- Reading through a dropped suffix. -/
theorem getD_drop (buf : List Char) (p k : Nat) :
    (buf.drop p).getD k cNull = charAt buf (p + k) := by
  simp [charAt, List.getD_eq_getElem?_getD, List.getElem?_drop]

/-- A suffix that starts before the terminator decomposes into its head
character and the next suffix. -/
theorem drop_eq_cons (buf : List Char) (p : Nat) (h : charAt buf p ≠ cNull) :
    buf.drop p = charAt buf p :: buf.drop (p + 1) := by
  have hlt := charAt_lt buf p h
  rw [List.drop_eq_getElem_cons hlt]
  congr 1
  simp [charAt, List.getD_eq_getElem?_getD, List.getElem?_eq_getElem hlt]

/-- The scanning loop skips a character that matches no rule. -/
theorem getNext_skip (buf : List Char) (p : Nat) (h0 : charAt buf p ≠ cNull)
    (h : ¬ ruleFires buf p) :
    GetNextTokenFromBuffer buf p = GetNextTokenFromBuffer buf (p + 1) := by
  simp only [ruleFires, not_or] at h
  obtain ⟨hdn, hv, hc, hq, hd, hs⟩ := h
  unfold GetNextTokenFromBuffer
  rw [drop_eq_cons buf p h0]
  simp only [lexGo, getD_drop]
  rw [if_neg h0, if_neg (by simpa using hdn), if_neg (by simpa using hv),
      if_neg (by simpa [Nat.add_assoc] using hc), if_neg hq, if_neg hd, if_neg hs]

/-- `PushParseError` keeps at most the first 32 diagnostics: the general
fold, starting from any collector not already above capacity. -/
theorem pushAll_errors (ps : List (Tokenizer × ErrMsg)) (ctx : Ctx)
    (h : ctx.errors.length ≤ 32) :
    (pushAll ctx ps).errors = (ctx.errors ++ ps.map mkPError).take 32 := by
  induction ps generalizing ctx with
  | nil =>
      simp only [pushAll, List.foldl_nil, List.map_nil, List.append_nil]
      exact (List.take_of_length_le h).symm
  | cons p ps ih =>
      simp only [pushAll, List.foldl_cons, List.map_cons] at *
      by_cases hlt : ctx.errors.length < 32
      · rw [show PushParseError ctx p.1 p.2 = ⟨ctx.errors ++ [mkPError p]⟩ from
              if_pos hlt]
        rw [ih ⟨ctx.errors ++ [mkPError p]⟩ (by simp; omega)]
        simp [List.append_assoc]
      · have h32 : ctx.errors.length = 32 := by omega
        rw [show PushParseError ctx p.1 p.2 = ctx from if_neg hlt]
        rw [ih ctx h]
        rw [List.take_append_of_le_length (by omega),
            List.take_append_of_le_length (by omega)]

/-- Claim C7: pushing `N` diagnostics into a fresh context retains exactly
`min N 32` of them — the first 32 in original push order — and pushes
beyond the capacity are dropped with no growth of the log. -/
theorem c7_thm (ps : List (Tokenizer × ErrMsg)) :
    (pushAll ⟨[]⟩ ps).errors = (ps.map mkPError).take 32 ∧
    (pushAll ⟨[]⟩ ps).errors.length = min ps.length 32 := by
  have h := pushAll_errors ps ⟨[]⟩ (by simp)
  simp only [List.nil_append] at h
  refine ⟨h, ?_⟩
  rw [h, List.length_take, List.length_map, Nat.min_comm]

/-- When the peeked token's kind is one no parser rule consumes, an
iteration of the ParseText loop body changes nothing (the failed `Require`
calls never advance the cursor). -/
theorem parseBody_skip (buf : List Char) (tk : Tokenizer) (ctx : Ctx)
    (acc : List ExprNode)
    (h1 : (GetNextTokenFromBuffer buf tk.pos).type ≠ .tVar)
    (h2 : (GetNextTokenFromBuffer buf tk.pos).type ≠ .tSymbol)
    (h3 : (GetNextTokenFromBuffer buf tk.pos).type ≠ .tDoubleNewline) :
    ParseBody buf tk ctx acc = (tk, ctx, acc) := by
  simp only [ParseBody, RequireTokenType, if_neg h1, if_neg h2, if_neg h3]

/-- Claim C1, amended: the parse loop is not total. Whenever the peeked
token is of a kind no rule consumes (not None, Var, Symbol, or
DoubleNewline — e.g. a top-level Int) and the error collector is empty, an
iteration leaves the tokenizer, the collector, and the node list unchanged,
so the loop never terminates, no matter the fuel. -/
theorem c1_amended_thm (buf : List Char) (tk : Tokenizer) (ctx : Ctx)
    (acc : List ExprNode) (hctx : ctx.errors = [])
    (h1 : (GetNextTokenFromBuffer buf tk.pos).type ≠ .tNone)
    (h2 : (GetNextTokenFromBuffer buf tk.pos).type ≠ .tVar)
    (h3 : (GetNextTokenFromBuffer buf tk.pos).type ≠ .tSymbol)
    (h4 : (GetNextTokenFromBuffer buf tk.pos).type ≠ .tDoubleNewline) :
    ∀ fuel, ParseLoop buf fuel tk ctx acc = none := by
  intro fuel
  induction fuel with
  | zero => simp only [ParseLoop, if_neg h1]
  | succ fuel ih =>
      simp only [ParseLoop, if_neg h1, parseBody_skip buf tk ctx acc h2 h3 h4]
      rw [if_neg (by simp [hctx])]
      exact ih

/-- Witness for the amended C1: on the concrete input `1` the loop state is
stuck, so five units of fuel are exhausted like any other amount. -/
theorem c1_amended_witness :
    ParseLoop bufOne 5 ⟨0, 1⟩ ⟨[]⟩ [] = none :=
  c1_amended_thm bufOne ⟨0, 1⟩ ⟨[]⟩ [] rfl (by decide) (by decide) (by decide)
    (by decide) 5

/-- The scanner's result from `p0` equals its result from `i` when every
position in between (and `p0` itself) is a skipped character. -/
theorem getNext_reach (buf : List Char) : ∀ (n p0 i : Nat), i - p0 = n → p0 ≤ i →
    (∀ j, p0 ≤ j → j < i → charAt buf j ≠ cNull ∧ ¬ ruleFires buf j) →
    GetNextTokenFromBuffer buf p0 = GetNextTokenFromBuffer buf i := by
  intro n
  induction n with
  | zero =>
      intro p0 i h hle _
      have : p0 = i := by omega
      rw [this]
  | succ n ih =>
      intro p0 i h hle hskip
      have hlt : p0 < i := by omega
      have hp := hskip p0 (Nat.le_refl _) hlt
      rw [getNext_skip buf p0 hp.1 hp.2]
      exact ih (p0 + 1) i (by omega) (by omega) (fun j hj1 hj2 => hskip j (by omega) hj2)

/-- At a position holding `v`,`a`,`r` the scanner produces a VarTag token
starting there. -/
theorem getNext_var (buf : List Char) (p : Nat) (hv : charAt buf p = 'v')
    (ha : charAt buf (p + 1) = 'a') (hr : charAt buf (p + 2) = 'r') :
    (GetNextTokenFromBuffer buf p).type = .tVar ∧
    (GetNextTokenFromBuffer buf p).start = p := by
  have h0 : charAt buf p ≠ cNull := by rw [hv]; decide
  unfold GetNextTokenFromBuffer
  rw [drop_eq_cons buf p h0]
  simp only [lexGo, getD_drop]
  rw [if_neg h0,
      if_neg (by rintro ⟨h, -⟩; rw [hv] at h; exact absurd h (by decide)),
      if_pos ⟨hv, (by simpa using ha), (by simpa [Nat.add_assoc] using hr)⟩]
  exact ⟨rfl, rfl⟩

/-- At a position holding `c`,`o`,`n`,`s`,`t` the scanner produces a
ConstTag token starting there. -/
theorem getNext_const (buf : List Char) (p : Nat) (hc : charAt buf p = 'c')
    (ho : charAt buf (p + 1) = 'o') (hn : charAt buf (p + 2) = 'n')
    (hs : charAt buf (p + 3) = 's') (ht : charAt buf (p + 4) = 't') :
    (GetNextTokenFromBuffer buf p).type = .tConst ∧
    (GetNextTokenFromBuffer buf p).start = p := by
  have h0 : charAt buf p ≠ cNull := by rw [hc]; decide
  unfold GetNextTokenFromBuffer
  rw [drop_eq_cons buf p h0]
  simp only [lexGo, getD_drop]
  rw [if_neg h0,
      if_neg (by rintro ⟨h, -⟩; rw [hc] at h; exact absurd h (by decide)),
      if_neg (by rintro ⟨h, -⟩; rw [hc] at h; exact absurd h (by decide)),
      if_pos ⟨hc, (by simpa using ho), (by simpa [Nat.add_assoc] using hn),
              (by simpa [Nat.add_assoc] using hs), (by simpa [Nat.add_assoc] using ht)⟩]
  exact ⟨rfl, rfl⟩

/-- Claim C9: the keyword rules are raw substring matches with no
word-boundary check. If `v`,`a`,`r` occur at position `i` and every earlier
position from the cursor on matches no rule, `next_token` returns a VarTag
token starting at `i` — even inside a longer word; likewise `const` via its
five-character match. -/
theorem c9_thm :
    (∀ (buf : List Char) (p0 i : Nat), p0 ≤ i →
       (∀ j, p0 ≤ j → j < i → charAt buf j ≠ cNull ∧ ¬ ruleFires buf j) →
       charAt buf i = 'v' → charAt buf (i + 1) = 'a' → charAt buf (i + 2) = 'r' →
       (GetNextTokenFromBuffer buf p0).type = .tVar ∧
       (GetNextTokenFromBuffer buf p0).start = i) ∧
    (∀ (buf : List Char) (p0 i : Nat), p0 ≤ i →
       (∀ j, p0 ≤ j → j < i → charAt buf j ≠ cNull ∧ ¬ ruleFires buf j) →
       charAt buf i = 'c' → charAt buf (i + 1) = 'o' → charAt buf (i + 2) = 'n' →
       charAt buf (i + 3) = 's' → charAt buf (i + 4) = 't' →
       (GetNextTokenFromBuffer buf p0).type = .tConst ∧
       (GetNextTokenFromBuffer buf p0).start = i) := by
  constructor
  · intro buf p0 i hle hskip hv ha hr
    rw [getNext_reach buf (i - p0) p0 i rfl hle hskip]
    exact getNext_var buf i hv ha hr
  · intro buf p0 i hle hskip hc ho hn hs ht
    rw [getNext_reach buf (i - p0) p0 i rfl hle hskip]
    exact getNext_const buf i hc ho hn hs ht

/-- Witness for C9: scanning `covariant` from the start yields a VarTag
token starting at offset 2, and scanning `zconst q;` yields a ConstTag
token starting at offset 1. -/
theorem c9_witness :
    ((GetNextTokenFromBuffer bufCov 0).type = .tVar ∧
     (GetNextTokenFromBuffer bufCov 0).start = 2) ∧
    ((GetNextTokenFromBuffer bufZConst 0).type = .tConst ∧
     (GetNextTokenFromBuffer bufZConst 0).start = 1) :=
  ⟨c9_thm.1 bufCov 0 2 (by omega)
      (fun j _ h2 => by interval_cases j <;> exact ⟨by decide, by decide⟩)
      (by decide) (by decide) (by decide),
   c9_thm.2 bufZConst 0 1 (by omega)
      (fun j _ h2 => by interval_cases j; exact ⟨by decide, by decide⟩)
      (by decide) (by decide) (by decide) (by decide) (by decide)⟩

/-- Every canonical break-out literal is a single character. -/
theorem blocks_length_one : ∀ lit ∈ symbolic_blocks, lit.length = 1 := by decide

/-- A Symbol token is never empty. -/
theorem symTokenLen_pos (c : Char) (rest : List Char) : 1 ≤ symTokenLen c rest := by
  unfold symTokenLen
  cases hf : symbolic_blocks.find? (fun lit => matchLit (c :: rest) lit) with
  | none => simp [hf]
  | some lit =>
      have h1 := blocks_length_one lit (List.mem_of_find?_eq_some hf)
      simp [hf, h1]

/-- Any Symbol token the scanner returns starts at a character from the
symbol set and has positive length. -/
theorem lexGo_symbol_start : ∀ (l : List Char) (p : Nat),
    (lexGo l p).type = .tSymbol →
    ∃ k, (lexGo l p).start = p + k ∧ CharIsSymbol (l.getD k cNull) = true ∧
         1 ≤ (lexGo l p).len := by
  intro l
  induction l with
  | nil =>
      intro p h
      simp only [lexGo] at h
      exact absurd h (by decide)
  | cons c rest ih =>
      intro p h
      simp only [lexGo] at h ⊢
      by_cases e1 : c = cNull
      · rw [if_pos e1] at h; exact absurd h (by decide)
      · rw [if_neg e1] at h ⊢
        by_cases e2 : c = cNL ∧ rest.getD 0 cNull = cNL
        · rw [if_pos e2] at h; simp at h
        · rw [if_neg e2] at h ⊢
          by_cases e3 : c = 'v' ∧ rest.getD 0 cNull = 'a' ∧ rest.getD 1 cNull = 'r'
          · rw [if_pos e3] at h; simp at h
          · rw [if_neg e3] at h ⊢
            by_cases e4 : c = 'c' ∧ rest.getD 0 cNull = 'o' ∧ rest.getD 1 cNull = 'n' ∧
                rest.getD 2 cNull = 's' ∧ rest.getD 3 cNull = 't'
            · rw [if_pos e4] at h; simp at h
            · rw [if_neg e4] at h ⊢
              by_cases e5 : c = cQuote
              · rw [if_pos e5] at h; simp at h
              · rw [if_neg e5] at h ⊢
                by_cases e6 : CharIsDigit c = true
                · rw [if_pos e6] at h; simp at h
                · rw [if_neg e6] at h ⊢
                  by_cases e7 : ¬ CharIsSpace c = true ∧ CharIsSymbol c = true
                  · rw [if_pos e7] at h ⊢
                    exact ⟨0, by simp, by simpa using e7.2,
                           by simpa using symTokenLen_pos c rest⟩
                  · rw [if_neg e7] at h ⊢
                    obtain ⟨k, h1, h2, h3⟩ := ih (p + 1) h
                    exact ⟨k + 1, by rw [h1]; omega, by simpa using h2, h3⟩

/-- Claim C10 groundwork: a Symbol token's text never equals `;` (the
symbol start set excludes `;`). -/
theorem getNext_symbol_slice (buf : List Char) (p : Nat)
    (h : (GetNextTokenFromBuffer buf p).type = .tSymbol) :
    sliceOf buf (GetNextTokenFromBuffer buf p) ≠ [';'] := by
  obtain ⟨k, hs0, hc, hl0⟩ := lexGo_symbol_start (buf.drop p) p h
  have hs : (GetNextTokenFromBuffer buf p).start = p + k := hs0
  have hl : 1 ≤ (GetNextTokenFromBuffer buf p).len := hl0
  rw [getD_drop] at hc
  intro heq
  unfold sliceOf at heq
  cases hd : buf.drop (GetNextTokenFromBuffer buf p).start with
  | nil => rw [hd] at heq; simp at heq
  | cons x xs =>
      rw [hd] at heq
      obtain ⟨m, hm⟩ : ∃ m, (GetNextTokenFromBuffer buf p).len = m + 1 :=
        ⟨(GetNextTokenFromBuffer buf p).len - 1, by omega⟩
      rw [hm, List.take_succ_cons] at heq
      have hx : x = ';' := ((List.cons.injEq _ _ _ _).mp heq).1
      have hx2 : charAt buf (GetNextTokenFromBuffer buf p).start = x := by
        have h2 : (buf.drop (GetNextTokenFromBuffer buf p).start).getD 0 cNull = x := by
          rw [hd]; rfl
        rwa [getD_drop, Nat.add_zero] at h2
      rw [hs, hx] at hx2
      rw [hx2] at hc
      exact absurd hc (by decide)

/-- Membership in the collector after a push: either an old diagnostic, or
one carrying the pushed message. -/
theorem mem_push (ctx : Ctx) (tk : Tokenizer) (m : ErrMsg) (e : PError)
    (h : e ∈ (PushParseError ctx tk m).errors) : e ∈ ctx.errors ∨ e.msg = m := by
  unfold PushParseError at h
  split at h
  · rcases List.mem_append.mp h with h | h
    · exact .inl h
    · rcases List.mem_singleton.mp h with rfl
      exact .inr rfl
  · exact .inl h

/-- Diagnostics produced inside one `gvStep` (the bracket/Int part of the
`GetValue` loop body) are either inherited or are not symbol reports. -/
theorem gvStep_good (buf : List Char) (link i : Nat) (bracket : Int)
    (value : Token) (tk : Tokenizer) (ctx : Ctx) (isSet : Bool) (e : PError)
    (h : e ∈ (gvStep buf link i bracket value tk ctx isSet).2.2.2.2.1.errors) :
    e ∈ ctx.errors ∨ NotSemiSymbolErr e := by
  simp only [gvStep] at h
  by_cases e1 : charAt buf (link + i) = '['
  · rw [if_pos e1] at h; exact .inl h
  · rw [if_neg e1] at h
    by_cases e2 : charAt buf (link + i) = ']'
    · rw [if_pos e2] at h; exact .inl h
    · rw [if_neg e2] at h
      by_cases e3 : CharIsDigit (charAt buf (link + i)) = true
      · rw [if_pos e3] at h
        cases hreq : RequireTokenType buf tk .tInt with
        | none => simp only [hreq] at h; exact .inl h
        | some pair =>
            obtain ⟨v, tk2⟩ := pair
            simp only [hreq] at h
            by_cases e4 : CharIsDigit (charAt buf (v.start + v.len - 1)) = true
            · rw [if_pos e4] at h; exact .inl h
            · rw [if_neg e4] at h
              rcases mem_push _ _ _ _ h with h | h
              · exact .inl h
              · exact .inr (fun s hs => by rw [h] at hs; cases hs)
      · rw [if_neg e3] at h; exact .inl h

/-- Diagnostics accumulated by the `GetValue` loop are either inherited or
are not symbol reports. -/
theorem gvLoop_good (buf : List Char) (link : Nat) :
    ∀ (fuel i linkLen : Nat) (bracket : Int) (value : Token) (tk : Tokenizer)
      (ctx : Ctx) (isSet : Bool) (e : PError),
    e ∈ (GetValueLoop buf link fuel i linkLen bracket value tk ctx isSet).2.2.2.2.errors →
    e ∈ ctx.errors ∨ NotSemiSymbolErr e := by
  intro fuel
  induction fuel with
  | zero =>
      intro i linkLen bracket value tk ctx isSet e h
      simp only [GetValueLoop] at h
      exact .inl h
  | succ fuel ih =>
      intro i linkLen bracket value tk ctx isSet e h
      simp only [GetValueLoop] at h
      by_cases e1 : charAt buf (link + i) = cNull
      · rw [if_pos e1] at h; exact .inl h
      · rw [if_neg e1] at h
        by_cases e2 : charAt buf (link + i) = cQuote
        · rw [if_pos e2] at h
          cases hreq : RequireTokenType buf tk .tStringConstant with
          | none =>
              simp only [hreq] at h
              rcases mem_push _ _ _ _ h with h | h
              · exact .inl h
              · exact .inr (fun s hs => by rw [h] at hs; cases hs)
          | some pair =>
              obtain ⟨v, tk2⟩ := pair
              simp only [hreq] at h
              exact .inl h
        · rw [if_neg e2] at h
          rcases hg : gvStep buf link i bracket value tk ctx isSet with
            ⟨i2, b2, v2, tk2, ctx2, s2⟩
          simp only [hg] at h
          have hc : ctx2 = (gvStep buf link i bracket value tk ctx isSet).2.2.2.2.1 := by
            rw [hg]
          by_cases e3 : charAt buf (link + i2) = ';'
          · rw [if_pos e3] at h
            have h2 : e ∈ ctx2.errors := h
            rw [hc] at h2
            exact gvStep_good buf link i bracket value tk ctx isSet e h2
          · rw [if_neg e3] at h
            rcases ih _ _ _ _ _ _ _ e h with h2 | h2
            · rw [hc] at h2
              exact gvStep_good buf link i bracket value tk ctx isSet e h2
            · exact .inr h2

/-- Diagnostics produced by `GetValue` are either inherited or are not
symbol reports. -/
theorem getValue_good (buf : List Char) (ctx : Ctx) (tk : Tokenizer) (link : Nat)
    (e : PError) (h : e ∈ (GetValue buf ctx tk link).2.2.2.errors) :
    e ∈ ctx.errors ∨ NotSemiSymbolErr e := by
  simp only [GetValue] at h
  rcases hg : GetValueLoop buf link (buf.length + 1) 0 0 0 {} tk ctx false with
    ⟨isSet, linkLen, value, tk2, ctx2⟩
  simp only [hg] at h
  have hc : ctx2 = (GetValueLoop buf link (buf.length + 1) 0 0 0 {} tk ctx false).2.2.2.2 := by
    rw [hg]
  by_cases e1 : isSet = true
  · rw [if_pos e1] at h
    have h2 : e ∈ ctx2.errors := h
    rw [hc] at h2
    exact gvLoop_good buf link _ _ _ _ _ _ _ _ e h2
  · rw [if_neg e1] at h
    rcases mem_push _ _ _ _ h with h | h
    · have h2 : e ∈ ctx2.errors := h
      rw [hc] at h2
      exact gvLoop_good buf link _ _ _ _ _ _ _ _ e h2
    · exact .inr (fun s hs => by rw [h] at hs; cases hs)

/-- Inverting a successful `RequireTokenType`. -/
theorem requireTokenType_inv (buf : List Char) (tk : Tokenizer) (ty : TokenType)
    (t : Token) (tk2 : Tokenizer)
    (h : RequireTokenType buf tk ty = some (t, tk2)) :
    t = GetNextTokenFromBuffer buf tk.pos ∧ t.type = ty := by
  simp only [RequireTokenType] at h
  by_cases hty : (GetNextTokenFromBuffer buf tk.pos).type = ty
  · rw [if_pos hty] at h
    injection h with h
    injection h with h1 h2
    exact ⟨h1.symm, h1 ▸ hty⟩
  · rw [if_neg hty] at h
    cases h

/-- Diagnostics produced by one iteration of the parse loop body are either
inherited or are not "Unexpected symbol `;`" reports. -/
theorem parseBody_good (buf : List Char) (tk : Tokenizer) (ctx : Ctx)
    (acc : List ExprNode) (e : PError)
    (h : e ∈ (ParseBody buf tk ctx acc).2.1.errors) :
    e ∈ ctx.errors ∨ NotSemiSymbolErr e := by
  simp only [ParseBody] at h
  cases hv : RequireTokenType buf tk .tVar with
  | some pair =>
      obtain ⟨isVar, tk1⟩ := pair
      simp only [hv] at h
      cases ha : RequireToken buf ⟨isVar.start + isVar.len, tk1.line⟩ ['='] with
      | some pair2 =>
          obtain ⟨isAssign, tk3⟩ := pair2
          simp only [ha] at h
          rcases hg : GetValue buf ctx tk3 (isAssign.start + 1) with ⟨ret, value, tk4, ctx4⟩
          simp only [hg] at h
          have hc : ctx4 = (GetValue buf ctx tk3 (isAssign.start + 1)).2.2.2 := by rw [hg]
          by_cases e1 : ret ≠ 0
          · rw [if_pos e1] at h
            have h2 : e ∈ ctx4.errors := h
            rw [hc] at h2
            exact getValue_good _ _ _ _ e h2
          · rw [if_neg e1] at h
            have h2 : e ∈ ctx4.errors := h
            rw [hc] at h2
            exact getValue_good _ _ _ _ e h2
      | none =>
          simp only [ha] at h
          rcases mem_push _ _ _ _ h with h | h
          · exact .inl h
          · exact .inr (fun s hs => by rw [h] at hs; cases hs)
  | none =>
      simp only [hv] at h
      cases hsym : RequireTokenType buf tk .tSymbol with
      | some pair =>
          obtain ⟨symbol, tk1⟩ := pair
          simp only [hsym] at h
          by_cases m1 : TokenMatchLit buf symbol ['*']
          · rw [if_pos m1] at h; exact .inl h
          · rw [if_neg m1] at h
            by_cases m2 : TokenMatchLit buf symbol ['|']
            · rw [if_pos m2] at h; exact .inl h
            · rw [if_neg m2] at h
              by_cases m3 : TokenMatchLit buf symbol [cBacktick]
              · rw [if_pos m3] at h; exact .inl h
              · rw [if_neg m3] at h
                rcases mem_push _ _ _ _ h with h | h
                · exact .inl h
                · refine .inr (fun s hs => ?_)
                  rw [h] at hs
                  injection hs with hs
                  obtain ⟨hsymeq, hty⟩ := requireTokenType_inv buf tk .tSymbol symbol tk1 hsym
                  rw [← hs, hsymeq]
                  exact getNext_symbol_slice buf tk.pos (hsymeq ▸ hty)
      | none =>
          simp only [hsym] at h
          cases hdn : RequireTokenType buf tk .tDoubleNewline with
          | some pair =>
              obtain ⟨t, tk1⟩ := pair
              simp only [hdn] at h
              exact .inl h
          | none =>
              simp only [hdn] at h
              exact .inl h

/-- Diagnostics in the collector when the parse loop returns are either
initial or are not "Unexpected symbol `;`" reports. -/
theorem parseLoop_good (buf : List Char) : ∀ (fuel : Nat) (tk : Tokenizer)
    (ctx : Ctx) (acc : List ExprNode) (ns : List ExprNode) (ctx2 : Ctx)
    (tk2 : Tokenizer),
    ParseLoop buf fuel tk ctx acc = some (ns, ctx2, tk2) →
    ∀ e ∈ ctx2.errors, e ∈ ctx.errors ∨ NotSemiSymbolErr e := by
  intro fuel
  induction fuel with
  | zero =>
      intro tk ctx acc ns ctx2 tk2 h e he
      simp only [ParseLoop] at h
      by_cases e1 : (GetNextTokenFromBuffer buf tk.pos).type = .tNone
      · rw [if_pos e1] at h
        simp only [Option.some.injEq, Prod.mk.injEq] at h
        obtain ⟨-, hctx, -⟩ := h
        rw [← hctx] at he
        exact .inl he
      · rw [if_neg e1] at h
        cases h
  | succ fuel ih =>
      intro tk ctx acc ns ctx2 tk2 h e he
      simp only [ParseLoop] at h
      by_cases e1 : (GetNextTokenFromBuffer buf tk.pos).type = .tNone
      · rw [if_pos e1] at h
        simp only [Option.some.injEq, Prod.mk.injEq] at h
        obtain ⟨-, hctx, -⟩ := h
        rw [← hctx] at he
        exact .inl he
      · rw [if_neg e1] at h
        rcases hb : ParseBody buf tk ctx acc with ⟨tkb, ctxb, accb⟩
        simp only [hb] at h
        have hcb : ctxb = (ParseBody buf tk ctx acc).2.1 := by rw [hb]
        by_cases e2 : ctxb.errors.length > 0
        · rw [if_pos e2] at h
          simp only [Option.some.injEq, Prod.mk.injEq] at h
          obtain ⟨-, hctx, -⟩ := h
          rw [← hctx] at he
          rw [hcb] at he
          exact parseBody_good buf tk ctx acc e he
        · rw [if_neg e2] at h
          rcases ih tkb ctxb accb ns ctx2 tk2 h e he with h2 | h2
          · rw [hcb] at h2
            exact parseBody_good buf tk ctx acc e h2
          · exact .inr h2

/-- Claim C10: `next_token` never returns a Symbol token whose text is `;`
(the symbol start set excludes `;`); a `;` is skipped one character at a
time producing no token; and consequently no parse ever records an
"Unexpected symbol" diagnostic about `;`. -/
theorem c10_thm :
    (∀ (buf : List Char) (p : Nat), (GetNextTokenFromBuffer buf p).type = .tSymbol →
       sliceOf buf (GetNextTokenFromBuffer buf p) ≠ [';']) ∧
    (∀ (buf : List Char) (p : Nat), charAt buf p = ';' →
       GetNextTokenFromBuffer buf p = GetNextTokenFromBuffer buf (p + 1)) ∧
    (∀ (buf : List Char) (fuel : Nat) (ns : List ExprNode) (ctx2 : Ctx)
       (tk2 : Tokenizer), ParseText buf fuel = some (ns, ctx2, tk2) →
       ∀ e ∈ ctx2.errors, NotSemiSymbolErr e) := by
  refine ⟨getNext_symbol_slice, ?_, ?_⟩
  · intro buf p h
    refine getNext_skip buf p (by rw [h]; decide) ?_
    intro hf
    rcases hf with ⟨h1, -⟩ | ⟨h1, -, -⟩ | ⟨h1, -, -, -, -⟩ | h1 | h1 | ⟨-, h1⟩ <;>
      rw [h] at h1 <;> exact absurd h1 (by decide)
  · intro buf fuel ns ctx2 tk2 h e he
    rcases parseLoop_good buf fuel _ _ _ ns ctx2 tk2 h e he with h2 | h2
    · simp at h2
    · exact h2

/-- Witness for C10: the symbol token scanned from `=` has text other than
`;`; a leading `;` is skipped; and the "Unexpected symbol" diagnostic
produced by parsing `{` is not about `;`. -/
theorem c10_witness :
    sliceOf ['='] (GetNextTokenFromBuffer ['='] 0) ≠ [';'] ∧
    GetNextTokenFromBuffer [';'] 0 = GetNextTokenFromBuffer [';'] 1 ∧
    (['{'] : List Char) ≠ [';'] :=
  ⟨c10_thm.1 ['='] 0 (by decide),
   c10_thm.2.1 [';'] 0 (by decide),
   c10_thm.2.2 bufBrace 10 [] ⟨[⟨1, .unexpectedSymbol ['{']⟩]⟩ ⟨1, 1⟩ (by decide)
     ⟨1, .unexpectedSymbol ['{']⟩ (by simp) ['{'] rfl⟩
/-- A parse-loop body iteration either leaves the node list unchanged or
appends exactly one node, whose recorded error count is the body's final
collector size. -/
theorem parseBody_append (buf : List Char) (tk : Tokenizer) (ctx : Ctx)
    (acc : List ExprNode) :
    (ParseBody buf tk ctx acc).2.2 = acc ∨
    ∃ n, (ParseBody buf tk ctx acc).2.2 = acc ++ [n] ∧
         n.errAtAppend = (ParseBody buf tk ctx acc).2.1.errors.length := by
  simp only [ParseBody]
  cases hv : RequireTokenType buf tk .tVar with
  | some pair =>
      obtain ⟨isVar, tk1⟩ := pair
      dsimp only
      cases ha : RequireToken buf ⟨isVar.start + isVar.len, tk1.line⟩ ['='] with
      | some pair2 =>
          obtain ⟨isAssign, tk3⟩ := pair2
          dsimp only
          rcases hg : GetValue buf ctx tk3 (isAssign.start + 1) with ⟨ret, value, tk4, ctx4⟩
          simp only [hg]
          by_cases e1 : ret ≠ 0
          · rw [if_pos e1]
            exact .inr ⟨_, rfl, rfl⟩
          · rw [if_neg e1]
            exact .inl rfl
      | none => exact .inl rfl
  | none =>
      dsimp only
      cases hsym : RequireTokenType buf tk .tSymbol with
      | some pair =>
          obtain ⟨symbol, tk1⟩ := pair
          dsimp only
          left
          split_ifs <;> rfl
      | none =>
          dsimp only
          cases hdn : RequireTokenType buf tk .tDoubleNewline with
          | some pair =>
              obtain ⟨t2, tk1⟩ := pair
              exact .inl rfl
          | none => exact .inl rfl

/-- Invariant for the amended C6: when the loop starts from a collector
without diagnostics and an accumulator of clean nodes, every returned node
except possibly the last was appended while the collector was empty. -/
theorem parseLoop_dropLast (buf : List Char) : ∀ (fuel : Nat) (tk : Tokenizer)
    (ctx : Ctx) (acc ns : List ExprNode) (ctx2 : Ctx) (tk2 : Tokenizer),
    (∀ n ∈ acc, n.errAtAppend = 0) →
    ParseLoop buf fuel tk ctx acc = some (ns, ctx2, tk2) →
    ∀ n ∈ ns.dropLast, n.errAtAppend = 0 := by
  intro fuel
  induction fuel with
  | zero =>
      intro tk ctx acc ns ctx2 tk2 hacc h n hn
      simp only [ParseLoop] at h
      by_cases e1 : (GetNextTokenFromBuffer buf tk.pos).type = .tNone
      · rw [if_pos e1] at h
        simp only [Option.some.injEq, Prod.mk.injEq] at h
        obtain ⟨hns, -, -⟩ := h
        rw [← hns] at hn
        exact hacc n ((List.dropLast_prefix acc).sublist.subset hn)
      · rw [if_neg e1] at h
        cases h
  | succ fuel ih =>
      intro tk ctx acc ns ctx2 tk2 hacc h n hn
      simp only [ParseLoop] at h
      by_cases e1 : (GetNextTokenFromBuffer buf tk.pos).type = .tNone
      · rw [if_pos e1] at h
        simp only [Option.some.injEq, Prod.mk.injEq] at h
        obtain ⟨hns, -, -⟩ := h
        rw [← hns] at hn
        exact hacc n ((List.dropLast_prefix acc).sublist.subset hn)
      · rw [if_neg e1] at h
        rcases hb : ParseBody buf tk ctx acc with ⟨tkb, ctxb, accb⟩
        simp only [hb] at h
        have haccb : accb = (ParseBody buf tk ctx acc).2.2 := by rw [hb]
        have hctxb : ctxb = (ParseBody buf tk ctx acc).2.1 := by rw [hb]
        by_cases e2 : ctxb.errors.length > 0
        · rw [if_pos e2] at h
          simp only [Option.some.injEq, Prod.mk.injEq] at h
          obtain ⟨hns, -, -⟩ := h
          rw [← hns] at hn
          rcases parseBody_append buf tk ctx acc with hcase | ⟨n2, hcase, -⟩
          · rw [haccb, hcase] at hn
            exact hacc n ((List.dropLast_prefix acc).sublist.subset hn)
          · rw [haccb, hcase] at hn
            have hdl : (acc ++ [n2]).dropLast = acc := by simp
            rw [hdl] at hn
            exact hacc n hn
        · rw [if_neg e2] at h
          have hz : ctxb.errors.length = 0 := by omega
          refine ih tkb ctxb accb ns ctx2 tk2 ?_ h n hn
          intro n2 hn2
          rcases parseBody_append buf tk ctx acc with hcase | ⟨n3, hcase, hfield⟩
          · rw [haccb, hcase] at hn2
            exact hacc n2 hn2
          · rw [haccb, hcase] at hn2
            rcases List.mem_append.mp hn2 with h3 | h3
            · exact hacc n2 h3
            · rcases List.mem_singleton.mp h3 with rfl
              rw [hfield, ← hctxb]
              exact hz

/-- Claim C6, amended. -/
theorem c6_amended_thm (buf : List Char) (fuel : Nat) (ns : List ExprNode)
    (ctx2 : Ctx) (tk2 : Tokenizer)
    (h : ParseText buf fuel = some (ns, ctx2, tk2)) :
    ∀ n ∈ ns.dropLast, n.errAtAppend = 0 :=
  parseLoop_dropLast buf fuel ⟨0, 1⟩ ⟨[]⟩ [] ns ctx2 tk2 (by simp) h

/-- Witness for the amended C6. -/
theorem c6_amended_witness :
    (⟨.var, [⟨.tVar, 0, 5, 0⟩, ⟨.tSymbol, 5, 1, 0⟩, ⟨.tInt, 6, 1, 0⟩], 3, 0⟩ :
      ExprNode).errAtAppend = 0 :=
  c6_amended_thm bufTwo 20
    [⟨.var, [⟨.tVar, 0, 5, 0⟩, ⟨.tSymbol, 5, 1, 0⟩, ⟨.tInt, 6, 1, 0⟩], 3, 0⟩,
     ⟨.var, [⟨.tVar, 10, 5, 0⟩, ⟨.tSymbol, 15, 1, 0⟩, ⟨.tInt, 16, 1, 0⟩], 3, 0⟩]
    ⟨[]⟩ ⟨17, 3⟩ (by decide)
    ⟨.var, [⟨.tVar, 0, 5, 0⟩, ⟨.tSymbol, 5, 1, 0⟩, ⟨.tInt, 6, 1, 0⟩], 3, 0⟩
    (by decide)

/-- A character other than a newline does not contribute to the newline
count of a span. -/
theorem countNLs_cons_ne (c : Char) (l : List Char) (h : c ≠ cNL) :
    countNLs (c :: l) = countNLs l := by
  simp [countNLs, List.filter_cons, h]

/-- The escape-aware scan always consumes its first character (the escape
flag starts raised). -/
theorem escScan_start (s1 s2 c : Char) (l : List Char) (h : c ≠ cNull) :
    escScan s1 s2 (c :: l) true = 1 + escScan s1 s2 l false := by
  simp only [escScan, if_neg h]
  rw [if_neg (by rintro ⟨-, h2⟩; exact absurd h2 (by decide))]
  simp

/-- The escape-aware scan stops at an unescaped stop character. -/
theorem escScan_stop (s1 s2 c : Char) (l : List Char) (h : c = s1 ∨ c = s2) :
    escScan s1 s2 (c :: l) false = 0 := by
  by_cases hn : c = cNull
  · simp [escScan, hn]
  · simp only [escScan, if_neg hn]
    rw [if_pos ⟨h, by simp⟩]

/-- The escape-aware scan, unescaped, runs over a clean prefix (no stop
characters, terminators or backslashes) and then stops. -/
theorem escScan_clean (s1 s2 : Char) (l : List Char) : ∀ (rest : List Char),
    (∀ c ∈ l, c ≠ s1 ∧ c ≠ s2 ∧ c ≠ cNull ∧ c ≠ cBackslash) →
    escScan s1 s2 rest false = 0 →
    escScan s1 s2 (l ++ rest) false = l.length := by
  induction l with
  | nil => intro rest _ h0; simpa using h0
  | cons c cs ih =>
      intro rest hl h0
      have hc := hl c (List.mem_cons_self c cs)
      simp only [List.cons_append, escScan, if_neg hc.2.2.1]
      rw [if_neg (by rintro ⟨h2, -⟩; rcases h2 with h2 | h2; exacts [hc.1 h2, hc.2.1 h2])]
      have hesc : (if (false : Bool) = true then false else decide (c = cBackslash)) = false := by
        simp [hc.2.2.2]
      rw [hesc]
      have happ : cs.append rest = cs ++ rest := rfl
      rw [happ, ih rest (fun c2 h2 => hl c2 (List.mem_cons_of_mem c h2)) h0]
      simp [Nat.add_comm]

/-- Basic consequences of a character being an ASCII digit. -/
theorem digit_facts (d : Char) (hd : CharIsDigit d = true) :
    d ≠ cNull ∧ d ≠ cNL ∧ d ≠ cQuote ∧ d ≠ 'v' ∧ d ≠ 'c' ∧ d ≠ ';' ∧
    d ≠ '[' ∧ d ≠ ']' ∧ CharIsSpace d = false ∧ CharIsSymbol d = false := by
  refine ⟨?_, ?_, ?_, ?_, ?_, ?_, ?_, ?_, ?_, ?_⟩
  · intro h; rw [h] at hd; exact absurd hd (by decide)
  · intro h; rw [h] at hd; exact absurd hd (by decide)
  · intro h; rw [h] at hd; exact absurd hd (by decide)
  · intro h; rw [h] at hd; exact absurd hd (by decide)
  · intro h; rw [h] at hd; exact absurd hd (by decide)
  · intro h; rw [h] at hd; exact absurd hd (by decide)
  · intro h; rw [h] at hd; exact absurd hd (by decide)
  · intro h; rw [h] at hd; exact absurd hd (by decide)
  · have hb : 48 ≤ d.toNat ∧ d.toNat ≤ 57 := by
      simpa [CharIsDigit, Bool.and_eq_true, decide_eq_true_eq] using hd
    simp only [CharIsSpace, decide_eq_false_iff_not]
    omega
  · cases hcs : CharIsSymbol d
    · rfl
    · exfalso
      have hmem : d ∈ symbols := by
        simpa [CharIsSymbol, List.contains_iff_exists_mem_beq, beq_iff_eq] using hcs
      fin_cases hmem <;> exact absurd hd (by decide)

/-- The Symbol-token length at `=` followed by anything is 1 (the canonical
`=` literal overrides the run). -/
theorem symTokenLen_eq (l : List Char) : symTokenLen '=' l = 1 := by
  simp [symTokenLen, symbolic_blocks, List.find?, matchLit, List.range_succ,
        List.getElem?_cons_zero, List.getD]

set_option maxHeartbeats 2000000

/-- Claim C2, amended: the all-values claim fails (see the counterexample),
but the single-digit integer case holds for every directive name. For every
name free of `=`, `:`, backslash and the terminator, parsing
`var<name>=<d>;` with `d` a single digit returns exactly one Var node whose
owned chain has length 3: the var tag first (spanning `var<name>`), the
literal `=` (the one-character Symbol token at the name's end) in the
middle, and the one-character Int value token last; no diagnostics are
recorded. -/
theorem c2_amended_thm (name : List Char) (d : Char)
    (hd : CharIsDigit d = true)
    (hname : ∀ c ∈ name, c ≠ '=' ∧ c ≠ ':' ∧ c ≠ cNull ∧ c ≠ cBackslash)
    (fuel : Nat) :
    ParseText (['v', 'a', 'r'] ++ name ++ ['=', d, ';']) (fuel + 1) =
      some ([⟨.var,
              [⟨.tVar, 0, 3 + name.length, countNLs name⟩,
               ⟨.tSymbol, 3 + name.length, 1, 0⟩,
               ⟨.tInt, 4 + name.length, 1, 0⟩], 3, 0⟩],
            ⟨[]⟩, ⟨5 + name.length, 1 + countNLs name⟩) := by
  obtain ⟨hd0, hdNL, hdQ, hdV, hdC, hdSemi, hdLB, hdRB, hdSp, hdSym⟩ := digit_facts d hd
  set buf := ['v', 'a', 'r'] ++ name ++ ['=', d, ';'] with hbufdef
  have hbufcons : buf = 'v' :: 'a' :: 'r' :: (name ++ ['=', d, ';']) := rfl
  have hbufsplit : buf = ('v' :: 'a' :: 'r' :: name) ++ ('=' :: d :: [';']) := by
    simp [hbufdef]
  have hlen3 : ('v' :: 'a' :: 'r' :: name).length = 3 + name.length := by
    simp; omega
  have hD1 : buf.drop (3 + name.length) = '=' :: d :: [';'] := by
    rw [hbufsplit]; exact List.drop_left' hlen3
  have hD2 : buf.drop (3 + name.length + 1) = d :: [';'] := by
    rw [← List.drop_drop, hD1]; rfl
  have hD3 : buf.drop (3 + name.length + 1 + 1) = [';'] := by
    rw [← List.drop_drop, hD2]; rfl
  have hC1 : charAt buf (3 + name.length) = '=' := by
    have h := getD_drop buf (3 + name.length) 0
    rw [hD1] at h
    simpa using h.symm
  have hC2 : charAt buf (3 + name.length + 1) = d := by
    have h := getD_drop buf (3 + name.length + 1) 0
    rw [hD2] at h
    simpa using h.symm
  have hC3 : charAt buf (3 + name.length + 1 + 1) = ';' := by
    have h := getD_drop buf (3 + name.length + 1 + 1) 0
    rw [hD3] at h
    simpa using h.symm
  have cnl3 : countNLs ('v' :: 'a' :: 'r' :: name) = countNLs name := by
    rw [countNLs_cons_ne _ _ (by decide), countNLs_cons_ne _ _ (by decide),
        countNLs_cons_ne _ _ (by decide)]
  -- the var token
  have hL : escScan '=' ':' buf true = 3 + name.length := by
    have h0 : escScan '=' ':' ('=' :: d :: [';']) false = 0 :=
      escScan_stop _ _ _ _ (.inl rfl)
    have h1 : escScan '=' ':' (('a' :: 'r' :: name) ++ ('=' :: d :: [';'])) false =
        ('a' :: 'r' :: name).length := by
      refine escScan_clean '=' ':' _ _ ?_ h0
      intro c hc
      simp only [List.mem_cons] at hc
      rcases hc with rfl | rfl | hc
      · exact ⟨by decide, by decide, by decide, by decide⟩
      · exact ⟨by decide, by decide, by decide, by decide⟩
      · exact hname c hc
    have h2 : buf = 'v' :: (('a' :: 'r' :: name) ++ ('=' :: d :: [';'])) := by
      simp [hbufdef]
    rw [h2, escScan_start _ _ _ _ (by decide), h1]
    simp; omega
  have htake : buf.take (3 + name.length) = 'v' :: 'a' :: 'r' :: name := by
    rw [hbufsplit]; exact List.take_left' hlen3
  have hT1 : GetNextTokenFromBuffer buf 0 =
      ⟨.tVar, 0, 3 + name.length, countNLs name⟩ := by
    show lexGo (buf.drop 0) 0 = _
    rw [List.drop_zero, hbufcons]
    simp only [lexGo]
    rw [if_neg (by decide), if_neg (by rintro ⟨h, -⟩; exact absurd h (by decide)),
        if_pos (show True ∧ ('a' :: 'r' :: (name ++ ['=', d, ';'])).getD 0 cNull = 'a' ∧
            ('a' :: 'r' :: (name ++ ['=', d, ';'])).getD 1 cNull = 'r' from
          ⟨trivial, rfl, rfl⟩),
        ← hbufcons, hL, htake, cnl3]
  -- the `=` token
  have hT2 : GetNextTokenFromBuffer buf (3 + name.length) =
      ⟨.tSymbol, 3 + name.length, 1, 0⟩ := by
    show lexGo (buf.drop (3 + name.length)) (3 + name.length) = _
    rw [hD1]
    simp only [lexGo]
    rw [if_neg (by decide), if_neg (by rintro ⟨h, -⟩; exact absurd h (by decide)),
        if_neg (by rintro ⟨h, -⟩; exact absurd h (by decide)),
        if_neg (by rintro ⟨h, -⟩; exact absurd h (by decide)),
        if_neg (by decide), if_neg (by decide), if_pos (by exact ⟨by decide, by decide⟩),
        symTokenLen_eq]
    rfl
  -- the value token
  have hIScan : intScan (d :: [';']) = 1 := by
    simp only [intScan]
    rw [if_pos ⟨hdSemi, hd0, by simp [hd]⟩, if_neg (by rintro ⟨h, -⟩; exact h rfl)]
  have hT3 : GetNextTokenFromBuffer buf (3 + name.length + 1) =
      ⟨.tInt, 3 + name.length + 1, 1, 0⟩ := by
    show lexGo (buf.drop (3 + name.length + 1)) (3 + name.length + 1) = _
    rw [hD2]
    simp only [lexGo]
    rw [if_neg hd0, if_neg (by rintro ⟨h, -⟩; exact hdNL h),
        if_neg (by rintro ⟨h, -⟩; exact hdV h),
        if_neg (by rintro ⟨h, -⟩; exact hdC h),
        if_neg hdQ, if_pos hd, hIScan,
        show ((d :: [';']).take 1) = [d] from rfl, countNLs_cons_ne d [] hdNL]
    rfl
  -- the final peek (None)
  have hT4 : GetNextTokenFromBuffer buf (3 + name.length + 1 + 1) = {} := by
    show lexGo (buf.drop (3 + name.length + 1 + 1)) (3 + name.length + 1 + 1) = _
    rw [hD3]
    simp only [lexGo]
    rw [if_neg (by decide), if_neg (by rintro ⟨h, -⟩; exact absurd h (by decide)),
        if_neg (by rintro ⟨h, -⟩; exact absurd h (by decide)),
        if_neg (by rintro ⟨h, -⟩; exact absurd h (by decide)),
        if_neg (by decide), if_neg (by decide),
        if_neg (by rintro ⟨-, h⟩; exact absurd h (by decide))]
  -- requires
  have hTM : TokenMatchLit buf ⟨.tSymbol, 3 + name.length, 1, 0⟩ ['='] := by
    refine ⟨by simp, by simp, ?_, rfl⟩
    intro k hk
    have hk1 : k < 1 := hk
    interval_cases k
    simpa using hC1
  have hReqVar : RequireTokenType buf ⟨0, 1⟩ .tVar =
      some (⟨.tVar, 0, 3 + name.length, countNLs name⟩,
            ⟨0 + (3 + name.length), 1 + countNLs name⟩) := by
    simp only [RequireTokenType, hT1]
    rfl
  have hReqEq : RequireToken buf ⟨0 + (3 + name.length), 1 + countNLs name⟩ ['='] =
      some (⟨.tSymbol, 3 + name.length, 1, 0⟩,
            ⟨3 + name.length + 1, 1 + countNLs name⟩) := by
    simp only [RequireToken, Nat.zero_add, hT2]
    rw [if_pos hTM]
    rfl
  have hReqInt : RequireTokenType buf ⟨3 + name.length + 1, 1 + countNLs name⟩ .tInt =
      some (⟨.tInt, 3 + name.length + 1, 1, 0⟩,
            ⟨3 + name.length + 1 + 1, 1 + countNLs name⟩) := by
    simp only [RequireTokenType, hT3]
    rw [if_pos trivial]
    rfl
  -- GetValue
  have hflen : buf.length + 1 = name.length + 6 + 1 := by
    rw [hbufdef]; simp
  have hGVL : GetValueLoop buf (3 + name.length + 1) (name.length + 6 + 1) 0 0 0 {}
      ⟨3 + name.length + 1, 1 + countNLs name⟩ ⟨[]⟩ false =
      (true, 1, ⟨.tInt, 3 + name.length + 1, 1, 0⟩,
       ⟨3 + name.length + 1 + 1, 1 + countNLs name⟩, ⟨[]⟩) := by
    generalize name.length + 6 = F
    simp only [GetValueLoop, Nat.add_zero, hC2]
    rw [if_neg hd0, if_neg hdQ]
    simp only [gvStep, Nat.add_zero, hC2]
    rw [if_neg hdLB, if_neg hdRB, if_pos hd]
    simp only [hReqInt]
    rw [show (3 + name.length + 1 + 1 - 1) = 3 + name.length + 1 from by omega, hC2]
    rw [if_pos hd]
    simp only [Nat.zero_add]
    rw [hC3]
    simp
  have hGV : GetValue buf ⟨[]⟩ ⟨3 + name.length + 1, 1 + countNLs name⟩
      (3 + name.length + 1) =
      (1, ⟨.tInt, 3 + name.length + 1, 1, 0⟩,
       ⟨3 + name.length + 1 + 1, 1 + countNLs name⟩, ⟨[]⟩) := by
    simp only [GetValue, hflen, hGVL]
    simp [wrap8]
  -- the loop body
  have hto : (((3 + name.length + 1 : Nat) : Int) + 1).toNat = 3 + name.length + 1 + 1 := by
    omega
  have hBody : ParseBody buf ⟨0, 1⟩ ⟨[]⟩ [] =
      (⟨3 + name.length + 1 + 1, 1 + countNLs name⟩, ⟨[]⟩,
       [⟨.var, [⟨.tVar, 0, 3 + name.length, countNLs name⟩,
                ⟨.tSymbol, 3 + name.length, 1, 0⟩,
                ⟨.tInt, 3 + name.length + 1, 1, 0⟩], 3, 0⟩]) := by
    simp only [ParseBody, hReqVar, hReqEq, hGV]
    rw [if_pos (by decide : (1 : Int) ≠ 0)]
    simp
    omega
  -- assemble the loop
  show ParseLoop buf (fuel + 1) ⟨0, 1⟩ ⟨[]⟩ [] = _
  rw [show ParseLoop buf (fuel + 1) ⟨0, 1⟩ ⟨[]⟩ [] =
        ParseLoop buf fuel (⟨3 + name.length + 1 + 1, 1 + countNLs name⟩ : Tokenizer)
          ⟨[]⟩ [⟨.var, [⟨.tVar, 0, 3 + name.length, countNLs name⟩,
                        ⟨.tSymbol, 3 + name.length, 1, 0⟩,
                        ⟨.tInt, 3 + name.length + 1, 1, 0⟩], 3, 0⟩] from by
    simp only [ParseLoop]
    rw [if_neg (by rw [hT1]; simp)]
    simp only [hBody]
    rw [if_neg (by simp)]]
  rw [ParseLoop.eq_def]
  dsimp only
  rw [if_pos (by rw [hT4])]
  rw [show 3 + name.length + 1 + 1 = 5 + name.length from by omega,
      show 3 + name.length + 1 = 4 + name.length from by omega]

set_option maxHeartbeats 200000

/-- Witness for the amended C2: the directive `var a=1;` (name `" a"`,
digit `1`) yields the single Var node with its 3-token chain. -/
theorem c2_amended_witness :
    ParseText (['v', 'a', 'r', ' ', 'a', '=', '1', ';']) 10 =
      some ([⟨.var, [⟨.tVar, 0, 5, 0⟩, ⟨.tSymbol, 5, 1, 0⟩, ⟨.tInt, 6, 1, 0⟩], 3, 0⟩],
            ⟨[]⟩, ⟨7, 1⟩) :=
  c2_amended_thm [' ', 'a'] '1' (by decide) (by decide) 9

end Ore
